import Mathlib

/-!
Verification development for the simfin-tools-cli repository.

The definitions below are a shallow embedding of the Python sources
`sfin.py` and `simfin_tools/simfin_tools/cli.py`: the per-cell formatters
(`format_number`, `format_price`, `format_date`), the Markdown table
renderer (`dataframe_to_markdown`), the CSV exporter (`save_dataframe`),
the as-of price join (`process_price_data`), the company search of the
`list` command, and the epilogue of `main` that decides the final message
and exit status.  Python floats are modelled as exact rationals (plus
explicit NaN and infinities); machine dates are modelled as natural
numbers or year/month/day triples; fallible Python code is modelled with
`Except` over an explicit exception type.
-/

/-- The Python exception classes relevant to the sources: the two classes
caught by the formatters' `except (ValueError, TypeError)` clauses;
`OverflowError`, which `int()` raises on an infinite float and which the
formatters do not catch; and `re.error`, which `re` raises on a malformed
regular expression (a direct `Exception` subclass, caught only by the
`list` command's blanket `except Exception` handler). -/
inductive PyErr where
  | valueError
  | typeError
  | overflowError
  | reError
deriving DecidableEq

/-- A Python float value: NaN, a signed infinity, or a finite value
(modelled as an exact rational). -/
inductive PyFloat where
  | pnan
  | pinf (neg : Bool)
  | pfin (q : ℚ)
deriving DecidableEq

/-- A Python cell value as it occurs in the dataframes: `None`, float NaN,
float infinity, a finite number (int or float), a string, or a
datetime-like value (year, month, day). -/
inductive Value where
  | vNone
  | vNan
  | vInf (neg : Bool)
  | vNum (q : ℚ)
  | vStr (s : String)
  | vDate (y m d : Nat)
deriving DecidableEq

deriving instance DecidableEq for Except

/-- `pd.isna`: true exactly for `None` and float NaN among the modelled
values (dates, numbers, infinities and strings are not NA). -/
def isna : Value → Bool
  | .vNone => true
  | .vNan => true
  | _ => false

/-- Decimal digit character for `m % 10`. -/
def digChar (m : Nat) : Char :=
  ['0', '1', '2', '3', '4', '5', '6', '7', '8', '9'].getD (m % 10) '0'

/-- Fuelled digit extraction, least significant digit first (structural
recursion on the fuel; `natDigitsRev` supplies enough fuel). -/
def natDigitsRevFuel : Nat → Nat → List Char
  | 0, _ => []
  | fuel + 1, n =>
    if n < 10 then [digChar n]
    else digChar (n % 10) :: natDigitsRevFuel fuel (n / 10)

/-- Decimal digits of `n`, least significant digit first; `0` gives `['0']`. -/
def natDigitsRev (n : Nat) : List Char := natDigitsRevFuel (n + 1) n

/-- Decimal digits of `n`, most significant digit first. -/
def natDecDigits (n : Nat) : List Char := (natDigitsRev n).reverse

/-- Plain decimal rendering of an integer (sign and digits). -/
def decReprChars (n : ℤ) : List Char :=
  (if n < 0 then ['-'] else []) ++ natDecDigits n.natAbs

/-- Plain decimal rendering of an integer, as a string. -/
def decRepr (n : ℤ) : String := ⟨decReprChars n⟩

/-- Python `int(float)` truncation toward zero, on the rational model
(`Int.tdiv` truncates toward zero). -/
def pyTrunc (q : ℚ) : ℤ := q.num.tdiv q.den

/-- Floor of a rational as an integer (`Int.fdiv` is floor division). -/
def ratFloor (x : ℚ) : ℤ := x.num.fdiv x.den

/-- Round a rational to the nearest integer, ties to even: the rounding
used by IEEE doubles and hence by Python's `%.2f` / `round`. -/
def rhe (x : ℚ) : ℤ :=
  let f := ratFloor x
  let r := x - f
  if r < 1 / 2 then f
  else if 1 / 2 < r then f + 1
  else if f % 2 = 0 then f else f + 1

/-- The digits of Python's `%.2f` rendering: sign, integer digits, a
point, and exactly two fractional digits (the value is rounded to two
decimals half-to-even; the sign of a negative zero is not modelled). -/
def fmtF2chars (q : ℚ) : List Char :=
  let n := rhe (q * 100)
  let m := n.natAbs
  (if n < 0 then ['-'] else []) ++
    natDecDigits (m / 100) ++ '.' :: [digChar (m % 100 / 10), digChar (m % 10)]

/-- Insert a `','` after every three characters of a least-significant-
digit-first digit list: the grouping performed by Python's `f"{num:,}"`. -/
def group3 : List Char → List Char
  | a :: b :: c :: d :: rest => a :: b :: c :: ',' :: group3 (d :: rest)
  | l => l

/-- Python `f"{num:,}"`: decimal rendering of an integer with comma
thousands separators. -/
def commaFmt (n : ℤ) : String :=
  ⟨(if n < 0 then ['-'] else []) ++ (group3 (natDigitsRev n.natAbs)).reverse⟩

/-- Remove the comma separators from a rendered number (used to state
that the comma rendering is faithful to the underlying integer). -/
def stripCommas (s : String) : String := ⟨s.data.filter (fun c => !(c == ','))⟩

/-- Map a character list to lower case (model of `str.lower` for the
ASCII data handled by the tool). -/
def toLowerList (l : List Char) : List Char := l.map Char.toLower

/-- Strip leading and trailing spaces (the stripping `float(str)` does). -/
def dropSpacesEnds (l : List Char) : List Char :=
  ((l.dropWhile (fun c => c = ' ')).reverse.dropWhile (fun c => c = ' ')).reverse

/-- Numeric value of a list of decimal digit characters (most significant
first). -/
def digitsToNat (l : List Char) : Nat :=
  l.foldl (fun a c => 10 * a + (c.toNat - 48)) 0

/-- Parse the optional exponent suffix of a float literal (the input is
already lower-cased): empty input keeps the mantissa, `e[±]digits`
scales it, anything else is a parse failure. -/
def parseExpPart (l : List Char) (mant : ℚ) : Option ℚ :=
  match l with
  | [] => some mant
  | 'e' :: r =>
    let (eneg, r2) :=
      match r with
      | '+' :: t => (false, t)
      | '-' :: t => (true, t)
      | t => (false, t)
    if r2 ≠ [] ∧ r2.all Char.isDigit then
      let k := digitsToNat r2
      some (if eneg then mant / 10 ^ k else mant * 10 ^ k)
    else none
  | _ => none

/-- Parse an unsigned float literal body: digits, an optional point with
further digits, and an optional exponent; at least one mantissa digit is
required. -/
def parseUnsignedFloat (l : List Char) : Option ℚ :=
  let intPart := l.takeWhile Char.isDigit
  let rest1 := l.dropWhile Char.isDigit
  match rest1 with
  | '.' :: r2 =>
    let fracPart := r2.takeWhile Char.isDigit
    let rest2 := r2.dropWhile Char.isDigit
    if intPart = [] ∧ fracPart = [] then none
    else
      parseExpPart rest2
        ((digitsToNat intPart : ℚ) + (digitsToNat fracPart : ℚ) / 10 ^ fracPart.length)
  | _ =>
    if intPart = [] then none else parseExpPart rest1 (digitsToNat intPart : ℚ)

/-- Model of Python `float(str)`: strip surrounding spaces, lower-case,
take an optional sign, then either one of the special words `inf`,
`infinity`, `nan` or a decimal literal; anything else raises
`ValueError` (modelled as `none`). -/
def pyParseFloat (s : String) : Option PyFloat :=
  let l := toLowerList (dropSpacesEnds s.data)
  let (neg, body) :=
    match l with
    | '+' :: t => (false, t)
    | '-' :: t => (true, t)
    | t => (false, t)
  if body = ['i', 'n', 'f'] ∨ body = ['i', 'n', 'f', 'i', 'n', 'i', 't', 'y'] then
    some (.pinf neg)
  else if body = ['n', 'a', 'n'] then some .pnan
  else
    match parseUnsignedFloat body with
    | some q => some (.pfin (if neg then -q else q))
    | none => none

/-- Model of Python `float(value)` on a cell value: `None` and datetime
values raise `TypeError`, unparseable strings raise `ValueError`,
numeric values convert. -/
def pyFloat : Value → Except PyErr PyFloat
  | .vNone => .error .typeError
  | .vNan => .ok .pnan
  | .vInf b => .ok (.pinf b)
  | .vNum q => .ok (.pfin q)
  | .vDate _ _ _ => .error .typeError
  | .vStr s =>
    match pyParseFloat s with
    | some f => .ok f
    | none => .error .valueError

/-- Model of Python `int(float)`: NaN raises `ValueError`, an infinity
raises `OverflowError`, a finite value truncates toward zero. -/
def pyIntOfFloat : PyFloat → Except PyErr ℤ
  | .pnan => .error .valueError
  | .pinf _ => .error .overflowError
  | .pfin q => .ok (pyTrunc q)

/-- The exception classes caught by the formatters' handlers:
`except (ValueError, TypeError)`. `OverflowError` is not among them. -/
def caughtByHandlers : PyErr → Bool
  | .valueError => true
  | .typeError => true
  | .overflowError => false
  | .reError => false

/-- Smallest `k` with `d ∣ 10 ^ k` (searched up to 40), used to render a
terminating decimal exactly. -/
def pow10k (d : Nat) : Option Nat := (List.range 40).find? (fun k => d ∣ 10 ^ k)

/-- Model of Python `str(float)` on the rational float model: the exact
shortest terminating decimal expansion (with a forced `.0` for integral
values); non-terminating rationals (which exact binary floats never
produce) fall back to a fraction rendering. -/
def pyStrNum (q : ℚ) : String :=
  match pow10k q.den with
  | some k =>
    let scaled := (q.num * (10 : ℤ) ^ k / (q.den : ℤ)).natAbs
    let sgn : List Char := if q.num < 0 then ['-'] else []
    if k = 0 then ⟨sgn ++ natDecDigits scaled ++ ['.', '0']⟩
    else
      let ds := natDigitsRev scaled
      let ds2 := ds ++ List.replicate (k + 1 - ds.length) '0'
      ⟨sgn ++ (ds2.drop k).reverse ++ '.' :: (ds2.take k).reverse⟩
  | none => ⟨decReprChars q.num ++ '/' :: natDecDigits q.den⟩

/-- Zero-pad the decimal rendering of `n` on the left to width `w`. -/
def padDigits (w n : Nat) : List Char :=
  let ds := natDecDigits n
  List.replicate (w - ds.length) '0' ++ ds

/-- `YYYY-MM-DD` character rendering of a date triple. -/
def isoChars (y m d : Nat) : List Char :=
  padDigits 4 y ++ '-' :: padDigits 2 m ++ '-' :: padDigits 2 d

/-- Model of Python `str(value)` for the modelled cell values (a
datetime renders the way a pandas `Timestamp` does). -/
def pyStr : Value → String
  | .vNone => "None"
  | .vNan => "nan"
  | .vInf b => if b then "-inf" else "inf"
  | .vNum q => pyStrNum q
  | .vStr s => s
  | .vDate y m d => ⟨isoChars y m d⟩ ++ " 00:00:00"

/-- A calendar date as carried by a parsed pandas `Timestamp`. -/
structure SDate where
  year : Nat
  month : Nat
  day : Nat
deriving DecidableEq

/-- Parse an ISO `YYYY-MM-DD` prefix, optionally followed by a space and
a time-of-day (the format produced by `str` on dates in these tables);
a model of the subset of `pd.to_datetime`'s string formats the tool
actually feeds it. -/
def parseIso (l : List Char) : Option SDate :=
  match l with
  | y1 :: y2 :: y3 :: y4 :: '-' :: m1 :: m2 :: '-' :: d1 :: d2 :: rest =>
    if [y1, y2, y3, y4, m1, m2, d1, d2].all Char.isDigit ∧
        (rest = [] ∨ rest.head? = some ' ') then
      some ⟨digitsToNat [y1, y2, y3, y4], digitsToNat [m1, m2], digitsToNat [d1, d2]⟩
    else none
  | _ => none

/-- Model of `pd.to_datetime(value)`: datetime values pass through,
date-shaped strings parse, small numbers are epoch-nanosecond timestamps
inside the first day, and everything else raises a `ValueError`-family
error (`OutOfBoundsDatetime` and date parse errors subclass
`ValueError`); `None` raises `TypeError` territory is never reached
because callers test `pd.isna` first. -/
def pdToDatetime : Value → Except PyErr SDate
  | .vDate y m d => .ok ⟨y, m, d⟩
  | .vStr s =>
    match parseIso s.data with
    | some d => .ok d
    | none => .error .valueError
  | .vNum q =>
    if q.num.natAbs < 86400000000000 then .ok ⟨1970, 1, 1⟩ else .error .valueError
  | .vNone => .error .typeError
  | .vNan => .error .valueError
  | .vInf _ => .error .valueError

/-- `strftime('%Y-%m-%d')`. -/
def fmtDateStr (d : SDate) : String := ⟨isoChars d.year d.month d.day⟩

/-- `cli.py` `format_number` (lines 39-47): empty string for NA values,
otherwise `f"{int(float(value)):,}"`, with `ValueError`/`TypeError`
falling back to `str(value)`; any other exception propagates. -/
def format_number (v : Value) : Except PyErr String :=
  if isna v then .ok "" else
  match pyFloat v with
  | .error e => if caughtByHandlers e then .ok (pyStr v) else .error e
  | .ok f =>
    match pyIntOfFloat f with
    | .ok n => .ok (commaFmt n)
    | .error e => if caughtByHandlers e then .ok (pyStr v) else .error e

/-- How Python renders a `PyFloat` under `"%.2f"`: finite values round
to two decimals, NaN prints `nan`, infinities print `inf`/`-inf`. -/
def fmtF2OfFloat : PyFloat → String
  | .pnan => "nan"
  | .pinf b => if b then "-inf" else "inf"
  | .pfin q => ⟨fmtF2chars q⟩

/-- Multiplication of a Python float by the positive constant 100. -/
def pyFloatMul100 : PyFloat → PyFloat
  | .pnan => .pnan
  | .pinf b => .pinf b
  | .pfin q => .pfin (q * 100)

/-- `cli.py` `format_price` (lines 50-57): empty string for NA values,
otherwise `f"{float(value) * 100:.2f}"`, with `ValueError`/`TypeError`
falling back to `str(value)`. -/
def format_price (v : Value) : Except PyErr String :=
  if isna v then .ok "" else
  match pyFloat v with
  | .error e => if caughtByHandlers e then .ok (pyStr v) else .error e
  | .ok f => .ok (fmtF2OfFloat (pyFloatMul100 f))

/-- `cli.py` `format_date` (lines 60-67): empty string for NA values,
otherwise `pd.to_datetime(value).strftime('%Y-%m-%d')`, with
`ValueError`/`TypeError` falling back to `str(value)`. -/
def format_date (v : Value) : Except PyErr String :=
  if isna v then .ok "" else
  match pdToDatetime v with
  | .ok d => .ok (fmtDateStr d)
  | .error e => if caughtByHandlers e then .ok (pyStr v) else .error e

/-- A row of the (single-ticker) daily share-price table: its `Date`
index value and the two price columns. -/
structure PriceRow where
  date : Nat
  close : ℚ
  adjClose : ℚ
deriving DecidableEq

/-- The largest `Date` occurring in a list of price rows (`max()` of the
masked index in `process_price_data`; callers only use it on nonempty
lists). -/
def maxDateOf (rs : List PriceRow) : Nat := (rs.map (fun r => r.date)).foldr max 0

/-- One iteration of the fiscal-date loop of `process_price_data`
(`cli.py` lines 236-242, `sfin.py` lines 136-143): mask the price rows
with `Date ≤ d`; if the mask is empty contribute nothing, otherwise take
every price row whose `Date` equals the maximum masked date. -/
def asOfRows (prices : List PriceRow) (d : Nat) : List PriceRow :=
  let masked := prices.filter (fun r => decide (r.date ≤ d))
  if masked.isEmpty then []
  else
    let closest := maxDateOf masked
    prices.filter (fun r => decide (r.date = closest))

/-- The concatenation `pd.concat(price_data_list)` of the per-fiscal-date
lookups, in fiscal-date order. -/
def processPriceJoin (fds : List Nat) (prices : List PriceRow) : List PriceRow :=
  (fds.map (fun d => asOfRows prices d)).flatten

/-- Accumulator pass of `uniqueFirst`: keep each value the first time it
is seen. -/
def uniqueFirstAux (seen : List Nat) : List Nat → List Nat
  | [] => []
  | d :: t =>
    if d ∈ seen then uniqueFirstAux seen t
    else d :: uniqueFirstAux (d :: seen) t

/-- `pandas` `Index.unique()` on the `Report Date` level: the distinct
values in order of first appearance. -/
def uniqueFirst (l : List Nat) : List Nat := uniqueFirstAux [] l

/-- `process_price_data` (`cli.py` lines 226-255) restricted to its pure
data flow: dedup the income statement's report dates, join each against
the price series, and concatenate. -/
def processPriceRows (plDates : List Nat) (prices : List PriceRow) : List PriceRow :=
  processPriceJoin (uniqueFirst plDates) prices

/-- The scaling `(price_data * 100).round(2)` applied by
`process_price_data` (`cli.py` line 248) to a price cell before the data
is rendered or saved. -/
def scaleClose (v : ℚ) : ℚ := ((rhe (v * 100 * 100) : ℚ)) / 100

/-- The string shown for a `Close` cell of the Markdown `Price Data`
section: `dataframe_to_markdown` is called with `is_price_data=True`, so
the already-scaled cell goes through `format_price` (`cli.py` lines
122-123). -/
def mdPriceCell (v : ℚ) : String :=
  match format_price (.vNum (scaleClose v)) with
  | .ok s => s
  | .error _ => "<uncaught exception>"

/-- The string written for a `Close` cell in the CSV path: the scaled
cell is written by `save_dataframe` with `float_format='%.2f'`
(`cli.py` lines 134-144). -/
def csvPriceCell (v : ℚ) : String := ⟨fmtF2chars (scaleClose v)⟩

/-- The epilogue of `cli.py` `main` for the `fy`/`q`/`ttm` commands
(lines 322-333): the line printed and the process exit status as a
function of the collected `saved_files`.  The failure branch executes a
plain `return`, so the interpreter exits with status 0. -/
def cli_finalize (ticker suffix : String) (savedFiles : List String) (md : Bool) :
    String × Nat :=
  if savedFiles.isEmpty then
    ("No data could be saved for " ++ ticker, 0)
  else if md then
    ("Successfully saved markdown file: " ++ ticker ++ suffix ++ ".md", 0)
  else
    ("Successfully saved the following datasets for " ++ ticker ++ ": " ++
      String.intercalate ", " savedFiles, 0)

/-- The epilogue of `sfin.py` `main` for the `fy`/`q`/`ttm` commands
(lines 160-164 and the `q`/`ttm` copies): the failure branch calls
`sys.exit(1)`. -/
def sfin_finalize (ticker : String) (savedFiles : List String) : String × Nat :=
  if savedFiles.isEmpty then
    ("No data could be saved for " ++ ticker, 1)
  else
    ("Successfully saved the following datasets for " ++ ticker ++ ": " ++
      String.intercalate ", " savedFiles, 0)

/-- The fixed set of left-aligned column names of
`dataframe_to_markdown` (`cli.py` line 98). -/
def leftAlignCols : List String :=
  ["Report Date", "Date", "Fiscal Year", "Fiscal Period", "Currency",
   "Publish Date", "Restated Date"]

/-- The alignment marker chosen for one header (`cli.py` lines 97-101). -/
def alignFor (col : String) : String :=
  if col ∈ leftAlignCols then ":-" else "-:"

/-- The list of alignment markers of the alignment line. -/
def alignmentRow (headers : List String) : List String := headers.map alignFor

/-- A pandas dataframe as the tool sees it: named index levels with
their per-row values, plus named data columns with their per-row
values.  A plain `RangeIndex` is the empty `indexNames` case. -/
structure DataFrame where
  indexNames : List String
  columns : List String
  rows : List (List Value × List Value)
deriving DecidableEq

instance : Inhabited DataFrame := ⟨⟨[], [], []⟩⟩

/-- The index values of one row restricted to the levels that are
neither `Ticker` nor `SimFinId`. -/
def keepIdx (names : List String) (vals : List Value) : List Value :=
  ((names.zip vals).filter
      (fun p => !(p.1 == "Ticker" || p.1 == "SimFinId"))).map (fun p => p.2)

/-- Net effect of `cli.py` lines 83-89 on a multi-indexed frame:
`reset_index`, drop the `Ticker` and `SimFinId` columns, and re-index by
the remaining former levels (a `RangeIndex`, i.e. `[]`, if none are
left). -/
def dropHiddenIndex (df : DataFrame) : DataFrame :=
  ⟨df.indexNames.filter (fun n => !(n == "Ticker" || n == "SimFinId")),
   df.columns,
   df.rows.map (fun r => (keepIdx df.indexNames r.1, r.2))⟩

/-- `df.index.get_level_values('SimFinId')[0]` when that level exists
(`cli.py` lines 72-75). -/
def simfinIdOf (df : DataFrame) : Option Value :=
  match df.indexNames.indexOf? "SimFinId", df.rows.head? with
  | some i, some r => r.1.get? i
  | _, _ => none

/-- The headers of the rendered table: the (non-null) index level names
followed by the data column names (`cli.py` lines 91-93). -/
def mdHeaders (df : DataFrame) : List String := df.indexNames ++ df.columns

/-- Formatting of one index cell (`cli.py` lines 105-115): index values
are first converted with `str`, and date-named levels then go through
`format_date`. -/
def formatIdxCell (name : String) (v : Value) : Except PyErr String :=
  if name = "Report Date" ∨ name = "Date" then format_date (.vStr (pyStr v))
  else pure (pyStr v)

/-- Formatting of one data cell (`cli.py` lines 117-125): date columns
use `format_date`, price columns use `format_price` when rendering price
data, and everything else uses `format_number`. -/
def formatDataCell (isPrice : Bool) (name : String) (v : Value) :
    Except PyErr String :=
  if name = "Report Date" ∨ name = "Date" ∨ name = "Publish Date" ∨
      name = "Restated Date" then format_date v
  else if isPrice ∧ (name = "Close" ∨ name = "Adj. Close") then format_price v
  else format_number v

/-- One rendered Markdown line: values joined by pipes. -/
def mdLine (cells : List String) : String :=
  "| " ++ String.intercalate " | " cells ++ " |"

/-- The pure rendering pass of `dataframe_to_markdown` over the frame
that remains after the hidden index levels have been dropped: title,
blank line, header line, alignment line, one line per row, and a
trailing blank line; a formatter exception aborts the rendering. -/
def mdRender (sid : Option Value) (df : DataFrame) (title : String)
    (isPrice : Bool) : Except PyErr String := do
  let titleLine := "## " ++ title ++
    (match sid with
     | some v => " (SimFinId: " ++ pyStr v ++ ")"
     | none => "")
  let hs := mdHeaders df
  let rows ← df.rows.mapM (fun r => do
    let ivs ← (df.indexNames.zip r.1).mapM (fun p => formatIdxCell p.1 p.2)
    let dvs ← (df.columns.zip r.2).mapM (fun p => formatDataCell isPrice p.1 p.2)
    pure (mdLine (ivs ++ dvs)))
  pure (String.intercalate "\n"
    ([titleLine, "", mdLine hs, mdLine (alignmentRow hs)] ++ rows ++ [""]))

/-- The Python object store: the dataframes reachable in the process,
indexed by allocation order. -/
abbrev Store := List DataFrame

/-- `dataframe_to_markdown` (`cli.py` lines 70-131) over an explicit
object store: reading the SimFinId from the caller's frame, allocating
the fresh copy `df_copy = df.copy()`, rebinding the local name to the
index-dropping pipeline's results (each pandas call there returns a new
frame), and rendering.  The returned store is the store after the call. -/
def dataframe_to_markdown (st : Store) (r : Nat) (title : String)
    (isPrice : Bool) : Except PyErr String × Store :=
  let df := List.getD st r default
  let sid := simfinIdOf df
  let st1 : Store := st ++ [df]
  let dfc := List.getD st1 st.length default
  let dfc := if 2 ≤ dfc.indexNames.length then dropHiddenIndex dfc else dfc
  (mdRender sid dfc title isPrice, st1)

/-- A row of the companies table of the `list` command: the ticker (the
index) and the possibly missing `Company Name`. -/
structure Company where
  tickerSym : String
  companyName : Option String
deriving DecidableEq

/-- Lower-casing of a string (model of `str.lower`). -/
def lowerStr (s : String) : String := ⟨toLowerList s.data⟩

/-- `List.isPrefixOf` based substring scan: Python's `needle in hay`. -/
def substrB (needle : List Char) : List Char → Bool
  | [] => needle.isEmpty
  | h :: t => needle.isPrefixOf (h :: t) || substrB needle t

/-- The characters that are special in a Python regular expression (the
set escaped by `re.escape`); `Series.str.contains` interprets its pattern
with `regex=True` by default, so a search term containing any of these is
not matched literally. -/
def reSpecialChars : List Char :=
  ['.', '^', '$', '*', '+', '?', '{', '}', '[', ']', '\\', '|', '(', ')']

/-- Abstract syntax of the regular-expression fragment the model
interprets: literal characters, `.`, concatenation, alternation `|`,
the quantifiers `*`/`+`/`?`, and groups `(...)`.  `fail` is the empty
language (used by the derivative matcher). -/
inductive RegexAst where
  | fail
  | empty
  | lit (c : Char)
  | dot
  | seq (a b : RegexAst)
  | alt (a b : RegexAst)
  | star (a : RegexAst)
  | plus (a : RegexAst)
  | opt (a : RegexAst)
  | group (a : RegexAst)
deriving DecidableEq

/-- Whether a regex accepts the empty string. -/
def reNullable : RegexAst → Bool
  | .fail => false
  | .empty => true
  | .lit _ => false
  | .dot => false
  | .seq a b => reNullable a && reNullable b
  | .alt a b => reNullable a || reNullable b
  | .star _ => true
  | .plus a => reNullable a
  | .opt _ => true
  | .group a => reNullable a

/-- Brzozowski derivative of a regex by one character (`.` matches any
character except a newline, as in Python without `re.DOTALL`). -/
def reDeriv : RegexAst → Char → RegexAst
  | .fail, _ => .fail
  | .empty, _ => .fail
  | .lit c, x => if x = c then .empty else .fail
  | .dot, x => if x = '\n' then .fail else .empty
  | .seq a b, x =>
    if reNullable a then .alt (.seq (reDeriv a x) b) (reDeriv b x)
    else .seq (reDeriv a x) b
  | .alt a b, x => .alt (reDeriv a x) (reDeriv b x)
  | .star a, x => .seq (reDeriv a x) (.star a)
  | .plus a, x => .seq (reDeriv a x) (.star a)
  | .opt a, x => reDeriv a x
  | .group a, x => reDeriv a x

/-- Whether the regex matches some (possibly empty) prefix of the input. -/
def reMatchPrefix (r : RegexAst) : List Char → Bool
  | [] => reNullable r
  | c :: t => reNullable r || reMatchPrefix (reDeriv r c) t

/-- Python `re.search(r, s) is not None`: the regex matches a substring
starting at some position (match existence is all `str.contains` uses,
so backtracking order is irrelevant). -/
def reSearch (r : RegexAst) : List Char → Bool
  | [] => reMatchPrefix r []
  | c :: t => reMatchPrefix r (c :: t) || reSearch r t

/-- Attach an optional `*`/`+`/`?` quantifier following a parsed atom. -/
def applyQuant (a : RegexAst) : List Char → RegexAst × List Char
  | '*' :: r => (.star a, r)
  | '+' :: r => (.plus a, r)
  | '?' :: r => (.opt a, r)
  | rest => (a, rest)

mutual

/-- Parse one regex atom: a literal character, `.`, or a group
`( alt )`.  A quantifier with nothing to repeat, an unterminated group,
and the constructs outside the modelled fragment (character classes
`[...]`, counted repetitions `{m,n}`, escapes `\`, anchors `^`/`$`, and
bare `]`/`}`) are mapped to `re.error`; no claim depends on a pattern
using the unmodelled constructs. -/
def parseAtom : Nat → List Char → Except PyErr (RegexAst × List Char)
  | 0, _ => .error .reError
  | _ + 1, [] => .error .reError
  | fuel + 1, c :: t =>
    if c = '(' then
      match parseAlt fuel t with
      | .ok (r, ')' :: rest2) => .ok (.group r, rest2)
      | .ok (_, _) => .error .reError
      | .error e => .error e
    else if c = '.' then .ok (.dot, t)
    else if c ∈ reSpecialChars then .error .reError
    else .ok (.lit c, t)

/-- Parse a concatenation: atoms with optional `*`/`+`/`?` quantifiers,
stopping at `|`, `)` or the end of the pattern. -/
def parseSeq : Nat → List Char → Except PyErr (RegexAst × List Char)
  | 0, _ => .error .reError
  | _ + 1, [] => .ok (.empty, [])
  | fuel + 1, c :: t =>
    if c = ')' ∨ c = '|' then .ok (.empty, c :: t)
    else
      match parseAtom fuel (c :: t) with
      | .error e => .error e
      | .ok (a, rest) =>
        let q := applyQuant a rest
        match parseSeq fuel q.2 with
        | .error e => .error e
        | .ok (b, rest3) => .ok (.seq q.1 b, rest3)

/-- Parse an alternation: concatenations separated by `|`. -/
def parseAlt : Nat → List Char → Except PyErr (RegexAst × List Char)
  | 0, _ => .error .reError
  | fuel + 1, l =>
    match parseSeq fuel l with
    | .error e => .error e
    | .ok (a, '|' :: r2) =>
      match parseAlt fuel r2 with
      | .error e => .error e
      | .ok (b, rest2) => .ok (.alt a b, rest2)
    | .ok (a, rest) => .ok (a, rest)

end

/-- Model of `re.compile` on the whole pattern: a parse that leaves input
behind (a stray `)`) is an unbalanced-parenthesis `re.error`. -/
def parseRegex (l : List Char) : Except PyErr RegexAst :=
  match parseAlt (2 * l.length + 2) l with
  | .error e => .error e
  | .ok (r, []) => .ok r
  | .ok (_, _ :: _) => .error .reError

/-- `Series.str.contains(term, na=False)` / `Index.str.contains(term)`:
the term is compiled as a regular expression (the pandas default
`regex=True`) and matched with search semantics against the lower-cased
candidate; a malformed pattern raises `re.error`. -/
def strContainsRegex (term cand : String) : Except PyErr Bool :=
  match parseRegex term.data with
  | .ok r => .ok (reSearch r cand.data)
  | .error e => .error e

/-- The `list` command's search (`cli.py` lines 270-282, `sfin.py` lines
427-444): lower-case the search term; an empty (falsy) term keeps the
whole table; otherwise compile the term as a regex and keep the rows
whose lower-cased name (missing names count as no match, `na=False`) or
lower-cased ticker it matches; a malformed term propagates `re.error`
out of the masks to the command's `except Exception` handler. -/
def searchCompanies (term : String) (cs : List Company) :
    Except PyErr (List Company) :=
  let t := lowerStr term
  if t.data.isEmpty then .ok cs
  else
    match parseRegex t.data with
    | .error e => .error e
    | .ok r =>
      .ok (cs.filter (fun c =>
        (match c.companyName with
         | some n => reSearch r (lowerStr n).data
         | none => false) || reSearch r (lowerStr c.tickerSym).data))

/-- The case-insensitive substring relation of the specification:
the lower-cased term occurs inside the lower-cased candidate. -/
def SpecSubstr (term cand : String) : Prop :=
  (lowerStr term).data <:+: (lowerStr cand).data

/-- The specification's match predicate for one company: the term occurs
(case-insensitively) in the name, which must be present, or in the
ticker symbol. -/
def SpecMatch (term : String) (c : Company) : Prop :=
  (∃ n, c.companyName = some n ∧ SpecSubstr term n) ∨ SpecSubstr term c.tickerSym

/-- The right-nested literal concatenation that a metacharacter-free
pattern parses to. -/
def litSeq : List Char → RegexAst
  | [] => .empty
  | c :: t => .seq (.lit c) (litSeq t)

/-- The specification's search, written from the spec's words: an empty
term keeps the whole table, otherwise keep the companies whose
lower-cased name (when present) or lower-cased ticker contains the
lower-cased term as a literal substring. -/
def specLiteralSearch (term : String) (cs : List Company) : List Company :=
  if term.data.isEmpty then cs
  else cs.filter (fun c =>
    (match c.companyName with
     | some n => substrB (lowerStr term).data (lowerStr n).data
     | none => false) || substrB (lowerStr term).data (lowerStr c.tickerSym).data)

/-- A cell of a table handed to `save_dataframe`: a finite numeric value,
a missing value, or text (dates are written as text). -/
inductive Cell where
  | num (q : ℚ)
  | nan
  | text (s : String)
deriving DecidableEq

/-- A table as written by `save_dataframe`: the header (index names
followed by column names, since `index=True`) and the rows. -/
structure Table where
  header : List String
  rows : List (List Cell)
deriving DecidableEq

/-- Double every quote character: `csv.writer`'s `doublequote=True`
escaping inside a quoted field. -/
def escQuotes : List Char → List Char
  | [] => []
  | '"' :: t => '"' :: '"' :: escQuotes t
  | c :: t => c :: escQuotes t

/-- A quoted CSV field: opening quote, doubled-quote-escaped content,
closing quote. -/
def quoteField (s : String) : List Char := '"' :: escQuotes s.data ++ ['"']

/-- The characters written for one cell under
`quoting=csv.QUOTE_NONNUMERIC, float_format='%.2f'`: numeric cells are
written unquoted as `%.2f`, missing values as the empty `na_rep`, and
every non-numeric value quoted. -/
def cellChars : Cell → List Char
  | .num q => fmtF2chars q
  | .nan => []
  | .text s => quoteField s

/-- One CSV record: the encoded fields joined by commas. -/
def recordChars (fs : List (List Char)) : List Char :=
  (List.intersperse [','] fs).flatten

/-- `save_dataframe` (`cli.py` lines 134-144): the header record (all
header names are strings, hence quoted) followed by the data records,
each record terminated by a newline. -/
def writeTable (t : Table) : List Char :=
  ((recordChars (t.header.map quoteField) :: t.rows.map
      (fun r => recordChars (r.map cellChars))).map (fun rec => rec ++ ['\n'])).flatten

/-- The decoded string a CSV reader recovers from one written cell. -/
def decodeCell : Cell → List Char
  | .num q => fmtF2chars q
  | .nan => []
  | .text s => s.data

/-- A standard CSV scanner: one character at a time, tracking whether the
scan is inside a quoted field, the current field and the current record.
A doubled quote inside a quoted field decodes to one quote; a comma or
newline outside quotes ends the field or the record. -/
def csvScan : List Char → Bool → List Char → List (List Char) →
    List (List (List Char))
  | [], false, field, rec =>
    if field = [] ∧ rec = [] then [] else [rec ++ [field]]
  | [], true, field, rec => [rec ++ [field]]
  | c :: t, false, field, rec =>
    if c = ',' then csvScan t false [] (rec ++ [field])
    else if c = '\n' then (rec ++ [field]) :: csvScan t false [] []
    else if c = '"' then csvScan t true field rec
    else csvScan t false (field ++ [c]) rec
  | '"' :: '"' :: t2, true, field, rec => csvScan t2 true (field ++ ['"']) rec
  | '"' :: t, true, field, rec => csvScan t false field rec
  | c :: t, true, field, rec => csvScan t true (field ++ [c]) rec
termination_by structural cs _ _ _ => cs

/-- Parse a CSV character stream into its records of decoded fields. -/
def parseCSVChars (cs : List Char) : List (List (List Char)) :=
  csvScan cs false [] []

/-! ### Helper lemmas -/

lemma digChar_mem (m : Nat) :
    digChar m ∈ ['0', '1', '2', '3', '4', '5', '6', '7', '8', '9'] := by
  unfold digChar
  have h : m % 10 < 10 := Nat.mod_lt _ (by norm_num)
  generalize m % 10 = k at h
  interval_cases k <;> decide

lemma natDigitsRevFuel_subset (fuel : Nat) :
    ∀ (n : Nat) (c : Char), c ∈ natDigitsRevFuel fuel n →
      c ∈ ['0', '1', '2', '3', '4', '5', '6', '7', '8', '9'] := by
  induction fuel with
  | zero => intro n c hc; simp [natDigitsRevFuel] at hc
  | succ fuel ih =>
    intro n c hc
    unfold natDigitsRevFuel at hc
    split at hc
    · rcases List.mem_singleton.mp hc with h
      exact h ▸ digChar_mem n
    · rcases List.mem_cons.mp hc with h | h
      · exact h ▸ digChar_mem _
      · exact ih _ _ h

lemma natDigitsRev_subset (n : Nat) (c : Char) (hc : c ∈ natDigitsRev n) :
    c ∈ ['0', '1', '2', '3', '4', '5', '6', '7', '8', '9'] :=
  natDigitsRevFuel_subset _ _ _ hc

lemma comma_not_mem_natDigitsRev (n : Nat) : ',' ∉ natDigitsRev n := by
  intro h
  have := natDigitsRev_subset n ',' h
  simp at this

lemma dot_not_mem_natDigitsRev (n : Nat) : '.' ∉ natDigitsRev n := by
  intro h
  have := natDigitsRev_subset n '.' h
  simp at this

lemma group3_subset : ∀ (l : List Char) (c : Char),
    c ∈ group3 l → c ∈ l ∨ c = ','
  | [], c, h => Or.inl h
  | [a], c, h => Or.inl h
  | [a, b], c, h => Or.inl h
  | [a, b, d], c, h => Or.inl h
  | a :: b :: d :: e :: rest, c, h => by
    have h' : c ∈ a :: b :: d :: ',' :: group3 (e :: rest) := h
    simp only [List.mem_cons] at h'
    rcases h' with h' | h' | h' | h' | h'
    · exact Or.inl (by simp [h'])
    · exact Or.inl (by simp [h'])
    · exact Or.inl (by simp [h'])
    · exact Or.inr h'
    · rcases group3_subset (e :: rest) c h' with h2 | h2
      · exact Or.inl (by simp only [List.mem_cons] at h2 ⊢; tauto)
      · exact Or.inr h2

lemma group3_filter_comma : ∀ (l : List Char), ',' ∉ l →
    (group3 l).filter (fun c => !(c == ',')) = l
  | [], _ => rfl
  | [a], h => by
    simp only [List.mem_singleton] at h
    show List.filter _ [a] = [a]
    simp [List.filter_cons, beq_iff_eq, Ne.symm h]
  | [a, b], h => by
    simp only [List.mem_cons, List.mem_singleton, not_or] at h
    show List.filter _ [a, b] = [a, b]
    simp [List.filter_cons, beq_iff_eq, Ne.symm h.1, Ne.symm h.2.1]
  | [a, b, d], h => by
    simp only [List.mem_cons, List.mem_singleton, not_or] at h
    show List.filter _ [a, b, d] = [a, b, d]
    simp [List.filter_cons, beq_iff_eq, Ne.symm h.1, Ne.symm h.2.1, Ne.symm h.2.2.1]
  | a :: b :: d :: e :: rest, h => by
    simp only [List.mem_cons, not_or] at h
    have hrec := group3_filter_comma (e :: rest) (by
      simp only [List.mem_cons, not_or]
      exact ⟨h.2.2.2.1, h.2.2.2.2⟩)
    show (a :: b :: d :: ',' :: group3 (e :: rest)).filter (fun c => !(c == ',')) = _
    simp only [List.filter_cons]
    simp [beq_iff_eq, Ne.symm h.1, Ne.symm h.2.1, Ne.symm h.2.2.1, hrec]
  

lemma ratFloor_intCast (n : ℤ) : ratFloor (n : ℚ) = n := by
  unfold ratFloor
  simp [Rat.num_intCast, Rat.den_intCast]

lemma rhe_intCast (n : ℤ) : rhe (n : ℚ) = n := by
  unfold rhe
  rw [ratFloor_intCast]
  norm_num

lemma fmtF2chars_intCast (n : ℤ) :
    fmtF2chars (n : ℚ) =
      (if n < 0 then ['-'] else []) ++ natDecDigits n.natAbs ++ ['.', '0', '0'] := by
  unfold fmtF2chars
  have h : ((n : ℚ) * 100) = (((n * 100 : ℤ)) : ℚ) := by push_cast; ring
  rw [h, rhe_intCast]
  have hneg : (n * 100 < 0) = (n < 0) := by
    simp only [eq_iff_iff]
    omega
  have habs : (n * 100).natAbs = n.natAbs * 100 := by
    rw [Int.natAbs_mul]; simp
  have h1 : n.natAbs * 100 / 100 = n.natAbs := by omega
  have h2 : n.natAbs * 100 % 100 = 0 := by omega
  have h3 : n.natAbs * 100 % 10 = 0 := by omega
  simp only [hneg, habs, h1, h2, h3, Nat.zero_div]
  rfl

lemma le_maxDateOf : ∀ (rs : List PriceRow) (r : PriceRow), r ∈ rs →
    r.date ≤ maxDateOf rs := by
  intro rs
  induction rs with
  | nil => intro r h; simp at h
  | cons s t ih =>
    intro r h
    have hfold : maxDateOf (s :: t) = max s.date (maxDateOf t) := rfl
    rcases List.mem_cons.mp h with h | h
    · rw [hfold, h]; exact Nat.le_max_left _ _
    · rw [hfold]; exact Nat.le_trans (ih r h) (Nat.le_max_right _ _)

lemma maxDateOf_mem : ∀ (rs : List PriceRow), rs ≠ [] →
    ∃ r ∈ rs, r.date = maxDateOf rs := by
  intro rs
  induction rs with
  | nil => intro h; exact absurd rfl h
  | cons s t ih =>
    intro _
    have hfold : maxDateOf (s :: t) = max s.date (maxDateOf t) := rfl
    by_cases ht : t = []
    · subst ht
      refine ⟨s, List.mem_cons_self _ _, ?_⟩
      simp [maxDateOf]
    · obtain ⟨r, hr, hd⟩ := ih ht
      rcases Nat.le_total s.date (maxDateOf t) with hle | hle
      · exact ⟨r, List.mem_cons_of_mem _ hr, by rw [hfold, Nat.max_eq_right hle, hd]⟩
      · exact ⟨s, List.mem_cons_self _ _, by rw [hfold, Nat.max_eq_left hle]⟩

lemma mem_asOfRows (prices : List PriceRow) (d : Nat) (r : PriceRow) :
    r ∈ asOfRows prices d ↔
      r ∈ prices ∧ r.date ≤ d ∧ ∀ p ∈ prices, p.date ≤ d → p.date ≤ r.date := by
  unfold asOfRows
  by_cases hemp : (prices.filter (fun r => decide (r.date ≤ d))).isEmpty
  · rw [if_pos hemp]
    have hnil : prices.filter (fun r => decide (r.date ≤ d)) = [] :=
      List.isEmpty_iff.mp hemp
    constructor
    · intro h; simp at h
    · rintro ⟨h1, h2, -⟩
      have : r ∈ prices.filter (fun r => decide (r.date ≤ d)) :=
        List.mem_filter.mpr ⟨h1, by simpa using h2⟩
      rw [hnil] at this
      simp at this
  · rw [if_neg hemp]
    have hne : prices.filter (fun r => decide (r.date ≤ d)) ≠ [] := by
      intro hc; exact hemp (by simp [hc])
    obtain ⟨s, hs, hsd⟩ := maxDateOf_mem _ hne
    have hsmem := List.mem_filter.mp hs
    have hsled : s.date ≤ d := by simpa using hsmem.2
    constructor
    · intro h
      have hm := List.mem_filter.mp h
      have heq : r.date = maxDateOf (prices.filter (fun r => decide (r.date ≤ d))) := by
        simpa using hm.2
      refine ⟨hm.1, ?_, ?_⟩
      · rw [heq, ← hsd]; exact hsled
      · intro p hp hpd
        have : p ∈ prices.filter (fun r => decide (r.date ≤ d)) :=
          List.mem_filter.mpr ⟨hp, by simpa using hpd⟩
        rw [heq]
        exact le_maxDateOf _ p this
    · rintro ⟨h1, h2, h3⟩
      refine List.mem_filter.mpr ⟨h1, ?_⟩
      have hrm : r ∈ prices.filter (fun r => decide (r.date ≤ d)) :=
        List.mem_filter.mpr ⟨h1, by simpa using h2⟩
      have hub : r.date ≤ maxDateOf (prices.filter (fun r => decide (r.date ≤ d))) :=
        le_maxDateOf _ r hrm
      have hlb : maxDateOf (prices.filter (fun r => decide (r.date ≤ d))) ≤ r.date := by
        rw [← hsd]
        exact h3 s hsmem.1 hsled
      simp [Nat.le_antisymm hub hlb]

lemma asOfRows_eq_nil_iff (prices : List PriceRow) (d : Nat) :
    asOfRows prices d = [] ↔ ∀ p ∈ prices, ¬ p.date ≤ d := by
  unfold asOfRows
  by_cases hemp : (prices.filter (fun r => decide (r.date ≤ d))).isEmpty
  · rw [if_pos hemp]
    have hnil : prices.filter (fun r => decide (r.date ≤ d)) = [] :=
      List.isEmpty_iff.mp hemp
    have := List.filter_eq_nil_iff.mp hnil
    constructor
    · intro _ p hp hpd
      exact absurd (by simpa using this p hp : ¬ p.date ≤ d) (by simpa using hpd)
    · intro _; rfl
  · rw [if_neg hemp]
    have hne : prices.filter (fun r => decide (r.date ≤ d)) ≠ [] := by
      intro hc; exact hemp (by simp [hc])
    obtain ⟨s, hs, hsd⟩ := maxDateOf_mem _ hne
    have hsmem := List.mem_filter.mp hs
    constructor
    · intro hc
      have : s ∈ prices.filter
          (fun r => decide (r.date = maxDateOf (prices.filter (fun r => decide (r.date ≤ d))))) :=
        List.mem_filter.mpr ⟨hsmem.1, by simpa using hsd⟩
      rw [hc] at this
      simp at this
    · intro hall
      exact absurd (by simpa using hsmem.2 : s.date ≤ d) (hall s hsmem.1)

lemma mem_uniqueFirstAux : ∀ (l seen : List Nat) (x : Nat),
    x ∈ uniqueFirstAux seen l ↔ x ∈ l ∧ x ∉ seen := by
  intro l
  induction l with
  | nil => intro seen x; simp [uniqueFirstAux]
  | cons d t ih =>
    intro seen x
    unfold uniqueFirstAux
    by_cases hd : d ∈ seen
    · rw [if_pos hd, ih]
      simp only [List.mem_cons]
      constructor
      · rintro ⟨h1, h2⟩; exact ⟨Or.inr h1, h2⟩
      · rintro ⟨h1 | h1, h2⟩
        · exact absurd (h1 ▸ hd) h2
        · exact ⟨h1, h2⟩
    · rw [if_neg hd]
      simp only [List.mem_cons, ih, List.mem_cons, not_or]
      constructor
      · rintro (h | ⟨h1, h2, h3⟩)
        · exact ⟨Or.inl h, h ▸ hd⟩
        · exact ⟨Or.inr h1, h3⟩
      · rintro ⟨h1 | h1, h2⟩
        · exact Or.inl h1
        · by_cases hx : x = d
          · exact Or.inl hx
          · exact Or.inr ⟨h1, hx, h2⟩

lemma nodup_uniqueFirstAux : ∀ (l seen : List Nat), (uniqueFirstAux seen l).Nodup := by
  intro l
  induction l with
  | nil => intro seen; simp [uniqueFirstAux]
  | cons d t ih =>
    intro seen
    unfold uniqueFirstAux
    by_cases hd : d ∈ seen
    · rw [if_pos hd]; exact ih seen
    · rw [if_neg hd]
      refine List.nodup_cons.mpr ⟨?_, ih _⟩
      intro hc
      have := (mem_uniqueFirstAux t (d :: seen) d).mp hc
      exact this.2 (List.mem_cons_self _ _)

lemma substrB_correct (needle : List Char) : ∀ (hay : List Char),
    substrB needle hay = true ↔ needle <:+: hay := by
  intro hay
  induction hay with
  | nil =>
    simp only [substrB, List.isEmpty_iff]
    constructor
    · intro h; simp [h]
    · intro h; exact List.eq_nil_of_infix_nil h
  | cons h t ih =>
    simp only [substrB, Bool.or_eq_true, List.isPrefixOf_iff_prefix, ih]
    exact (List.infix_cons_iff).symm

lemma digit_char_props (c : Char)
    (h : c ∈ ['0', '1', '2', '3', '4', '5', '6', '7', '8', '9']) :
    c ≠ ',' ∧ c ≠ '\n' ∧ c ≠ '"' ∧ c ≠ '.' ∧ c ≠ '-' := by
  fin_cases h <;> exact ⟨by decide, by decide, by decide, by decide, by decide⟩

lemma fmtF2chars_safe (q : ℚ) (c : Char) (hc : c ∈ fmtF2chars q) :
    c ≠ ',' ∧ c ≠ '\n' ∧ c ≠ '"' := by
  unfold fmtF2chars at hc
  rcases List.mem_append.mp hc with h12 | h3
  · rcases List.mem_append.mp h12 with h1 | h2
    · split at h1
      · rcases List.mem_singleton.mp h1 with h
        subst h
        exact ⟨by decide, by decide, by decide⟩
      · simp at h1
    · have hd := natDigitsRev_subset _ _ (List.mem_reverse.mp h2)
      have := digit_char_props c hd
      exact ⟨this.1, this.2.1, this.2.2.1⟩
  · rcases List.mem_cons.mp h3 with h | h
    · subst h
      exact ⟨by decide, by decide, by decide⟩
    · rcases List.mem_cons.mp h with h | h
      · have hp := digit_char_props (digChar ((rhe (q * 100)).natAbs % 100 / 10))
          (digChar_mem _)
        rw [h]
        exact ⟨hp.1, hp.2.1, hp.2.2.1⟩
      · rcases List.mem_singleton.mp h with h
        have hp := digit_char_props (digChar ((rhe (q * 100)).natAbs % 10))
          (digChar_mem _)
        rw [h]
        exact ⟨hp.1, hp.2.1, hp.2.2.1⟩

lemma csvScan_nil_false (field : List Char) (rec : List (List Char)) :
    csvScan [] false field rec =
      if field = [] ∧ rec = [] then [] else [rec ++ [field]] := rfl

lemma csvScan_comma (t field : List Char) (rec : List (List Char)) :
    csvScan (',' :: t) false field rec = csvScan t false [] (rec ++ [field]) := by
  simp [csvScan]

lemma csvScan_newline (t field : List Char) (rec : List (List Char)) :
    csvScan ('\n' :: t) false field rec =
      (rec ++ [field]) :: csvScan t false [] [] := by
  simp [csvScan]

lemma csvScan_openquote (t field : List Char) (rec : List (List Char)) :
    csvScan ('"' :: t) false field rec = csvScan t true field rec := by
  simp [csvScan]

lemma csvScan_char_false (c : Char) (t field : List Char) (rec : List (List Char))
    (h1 : c ≠ ',') (h2 : c ≠ '\n') (h3 : c ≠ '"') :
    csvScan (c :: t) false field rec = csvScan t false (field ++ [c]) rec := by
  simp [csvScan, h1, h2, h3]

lemma csvScan_escq (t2 field : List Char) (rec : List (List Char)) :
    csvScan ('"' :: '"' :: t2) true field rec =
      csvScan t2 true (field ++ ['"']) rec := by
  simp [csvScan]

lemma csvScan_closequote (t field : List Char) (rec : List (List Char))
    (h : t.head? ≠ some '"') :
    csvScan ('"' :: t) true field rec = csvScan t false field rec := by
  cases t with
  | nil => simp [csvScan]
  | cons x xs =>
    have hx : x ≠ '"' := by
      intro hc; exact h (by simp [hc])
    simp [csvScan, hx]

lemma csvScan_char_true (c : Char) (t field : List Char) (rec : List (List Char))
    (h : c ≠ '"') :
    csvScan (c :: t) true field rec = csvScan t true (field ++ [c]) rec := by
  simp [csvScan, h]

lemma csvScan_token : ∀ (t : List Char),
    (∀ c ∈ t, c ≠ ',' ∧ c ≠ '\n' ∧ c ≠ '"') →
    ∀ (rest field : List Char) (rec : List (List Char)),
      csvScan (t ++ rest) false field rec = csvScan rest false (field ++ t) rec := by
  intro t
  induction t with
  | nil => intro _ rest field rec; simp
  | cons c t ih =>
    intro ht rest field rec
    have hc := ht c (List.mem_cons_self _ _)
    have ht' : ∀ x ∈ t, x ≠ ',' ∧ x ≠ '\n' ∧ x ≠ '"' :=
      fun x hx => ht x (List.mem_cons_of_mem _ hx)
    rw [List.cons_append, csvScan_char_false c _ _ _ hc.1 hc.2.1 hc.2.2,
      ih ht' rest (field ++ [c]) rec, List.append_assoc]
    rfl

lemma csvScan_quoted : ∀ (s rest field : List Char) (rec : List (List Char)),
    rest.head? ≠ some '"' →
    csvScan (escQuotes s ++ '"' :: rest) true field rec =
      csvScan rest false (field ++ s) rec := by
  intro s
  induction s with
  | nil =>
    intro rest field rec h
    rw [show escQuotes [] = [] from rfl, List.nil_append,
      csvScan_closequote rest field rec h, List.append_nil]
  | cons c s ih =>
    intro rest field rec h
    by_cases hc : c = '"'
    · subst hc
      rw [show escQuotes ('"' :: s) = '"' :: '"' :: escQuotes s from rfl]
      rw [List.cons_append, List.cons_append, csvScan_escq, ih rest (field ++ ['"']) rec h,
        List.append_assoc]
      rfl
    · rw [show escQuotes (c :: s) = c :: escQuotes s from by simp [escQuotes, hc]]
      rw [List.cons_append, csvScan_char_true c _ _ _ hc,
        ih rest (field ++ [c]) rec h, List.append_assoc]
      rfl

lemma csvScan_cell (cell : Cell) (rest field : List Char) (rec : List (List Char))
    (hrest : rest.head? = some ',' ∨ rest.head? = some '\n') :
    csvScan (cellChars cell ++ rest) false field rec =
      csvScan rest false (field ++ decodeCell cell) rec := by
  have hnq : rest.head? ≠ some '"' := by
    rcases hrest with h | h <;> rw [h] <;> simp
  cases cell with
  | num q =>
    exact csvScan_token _ (fun c hc => fmtF2chars_safe q c hc) rest field rec
  | nan => simp [cellChars, decodeCell]
  | text s =>
    show csvScan (quoteField s ++ rest) false field rec = _
    simp only [quoteField, List.cons_append, List.append_assoc, List.singleton_append]
    rw [csvScan_openquote]
    exact csvScan_quoted s.data rest field rec hnq

lemma recordChars_cons (x y : List Char) (t : List (List Char)) :
    recordChars (x :: y :: t) = x ++ ',' :: recordChars (y :: t) := by
  simp [recordChars, List.intersperse]

lemma recordChars_cons_ne (x : List Char) (ys : List (List Char)) (h : ys ≠ []) :
    recordChars (x :: ys) = x ++ ',' :: recordChars ys := by
  cases ys with
  | nil => exact absurd rfl h
  | cons y t => exact recordChars_cons x y t

lemma csvScan_record : ∀ (cs : List Cell) (c : Cell) (rest field : List Char)
    (rec : List (List Char)),
    csvScan (recordChars ((c :: cs).map cellChars) ++ '\n' :: rest) false field rec =
      (rec ++ (field ++ decodeCell c) :: cs.map decodeCell) :: csvScan rest false [] [] := by
  intro cs
  induction cs with
  | nil =>
    intro c rest field rec
    rw [show recordChars ([c].map cellChars) = cellChars c from by
      simp [recordChars]]
    rw [csvScan_cell c ('\n' :: rest) field rec (Or.inr rfl), csvScan_newline]
    simp
  | cons c2 cs ih =>
    intro c rest field rec
    rw [show ((c :: c2 :: cs).map cellChars) = cellChars c :: ((c2 :: cs).map cellChars)
      from rfl]
    rw [recordChars_cons_ne _ _ (by simp), List.append_assoc, List.cons_append]
    rw [csvScan_cell c
      (',' :: (recordChars ((c2 :: cs).map cellChars) ++ '\n' :: rest)) field rec
      (Or.inl rfl)]
    rw [csvScan_comma]
    rw [ih c2 rest [] (rec ++ [field ++ decodeCell c])]
    simp

lemma csvScan_records : ∀ (rows : List (List Cell)), (∀ r ∈ rows, r ≠ []) →
    csvScan ((rows.map (fun r => recordChars (r.map cellChars) ++ ['\n'])).flatten)
        false [] [] =
      rows.map (fun r => r.map decodeCell) := by
  intro rows
  induction rows with
  | nil => intro _; rfl
  | cons r rows ih =>
    intro hne
    have hr := hne r (List.mem_cons_self _ _)
    have hrows := fun x hx => hne x (List.mem_cons_of_mem _ hx)
    cases r with
    | nil => exact absurd rfl hr
    | cons c cs =>
      rw [List.map_cons, List.flatten_cons, List.append_assoc]
      rw [show (['\n'] : List Char) ++
          ((rows.map (fun r => recordChars (r.map cellChars) ++ ['\n'])).flatten) =
          '\n' :: ((rows.map (fun r => recordChars (r.map cellChars) ++ ['\n'])).flatten)
        from rfl]
      rw [csvScan_record cs c _ [] [], ih hrows]
      simp

/-! ### Claim theorems -/

/-- C1: when no statement dataset produced data (`saved_files` empty), both
implementations print `No data could be saved for <ticker>`, but only the
legacy `sfin.py` exits with a non-zero status; `simfin_tools/cli.py`
returns from `main` normally, so the process exits with status 0 — the
claimed non-zero exit does not hold for the current CLI. -/
theorem spec_c1_no_data_message_and_exit :
    cli_finalize "ZZZ" "" [] false = ("No data could be saved for ZZZ", 0) ∧
    cli_finalize "ZZZ" "" [] true = ("No data could be saved for ZZZ", 0) ∧
    sfin_finalize "ZZZ" [] = ("No data could be saved for ZZZ", 1) := by
  refine ⟨?_, ?_, ?_⟩ <;> rfl

/-- C2: for the input price 1.0, the Markdown `Price Data` cell shows
`10000.00` — the ×100 scale factor is applied twice on the Markdown path
(once in `process_price_data`, once in `format_price`) — while the CSV
path scales once and writes `100.00`. -/
theorem spec_c2_price_scaled_twice_in_markdown :
    mdPriceCell 1 = "10000.00" ∧ csvPriceCell 1 = "100.00" := by
  have hs : scaleClose 1 = ((100 : ℤ) : ℚ) := by
    unfold scaleClose
    rw [show ((1 : ℚ) * 100 * 100) = (((10000 : ℤ)) : ℚ) by norm_num, rhe_intCast]
    norm_num
  constructor
  · unfold mdPriceCell
    rw [hs]
    rw [show format_price (.vNum ((100 : ℤ) : ℚ)) =
        .ok ⟨fmtF2chars (((100 : ℤ) : ℚ) * 100)⟩ from rfl]
    rw [show (((100 : ℤ) : ℚ) * 100) = (((10000 : ℤ)) : ℚ) by push_cast; norm_num]
    rw [fmtF2chars_intCast]
    decide
  · unfold csvPriceCell
    rw [hs, fmtF2chars_intCast]
    decide

/-- C3: the as-of join of `process_price_data`: a price row is selected
for fiscal date `d` exactly when it is the latest price row dated on or
before `d`; a fiscal date with no price on or before it contributes
nothing; and the concatenated output has one block per fiscal date (no
deduplication across fiscal dates). -/
theorem spec_c3_asof_join (prices : List PriceRow) (fds : List Nat)
    (d : Nat) (r : PriceRow) :
    (r ∈ asOfRows prices d ↔
      r ∈ prices ∧ r.date ≤ d ∧ ∀ p ∈ prices, p.date ≤ d → p.date ≤ r.date) ∧
    (asOfRows prices d = [] ↔ ∀ p ∈ prices, ¬ p.date ≤ d) ∧
    (processPriceJoin fds prices).length =
      (fds.map (fun x => (asOfRows prices x).length)).sum := by
  refine ⟨mem_asOfRows _ _ _, asOfRows_eq_nil_iff _ _, ?_⟩
  unfold processPriceJoin
  rw [List.length_flatten, List.map_map]
  rfl

/-- C10: the fiscal dates are deduplicated (`Index.unique()`) before the
join: a report date occurring several times in the income statement
appears exactly once in the deduplicated date list, and (with the price
series keyed uniquely by date) contributes at most one price row. -/
theorem spec_c10_dedup_before_join (plDates : List Nat) (prices : List PriceRow)
    (d : Nat) (hd : d ∈ plDates)
    (hnd : (prices.map (fun r => r.date)).Nodup) :
    (uniqueFirst plDates).count d = 1 ∧ (asOfRows prices d).length ≤ 1 := by
  constructor
  · have hmem : d ∈ uniqueFirst plDates :=
      (mem_uniqueFirstAux plDates [] d).mpr ⟨hd, by simp⟩
    exact List.count_eq_one_of_mem (nodup_uniqueFirstAux plDates []) hmem
  · unfold asOfRows
    by_cases hemp : (prices.filter (fun r => decide (r.date ≤ d))).isEmpty
    · rw [if_pos hemp]; simp
    · rw [if_neg hemp]
      have hlen : ∀ (ps : List PriceRow), (ps.map (fun r => r.date)).Nodup →
          ∀ (x : Nat), (ps.filter (fun r => decide (r.date = x))).length ≤ 1 := by
        intro ps
        induction ps with
        | nil => intro _ x; simp
        | cons p t ih =>
          intro hnd x
          rw [List.map_cons, List.nodup_cons] at hnd
          rw [List.filter_cons]
          by_cases hp : p.date = x
          · rw [if_pos (by simpa using hp)]
            have hnil : t.filter (fun r => decide (r.date = x)) = [] := by
              rw [List.filter_eq_nil_iff]
              intro r hr hc
              exact hnd.1 (by
                rw [show p.date = r.date from by
                  rw [hp, show r.date = x from by simpa using hc]]
                exact List.mem_map.mpr ⟨r, hr, rfl⟩)
            rw [hnil]
            simp
          · rw [if_neg (by simpa using hp)]
            exact ih hnd.2 x
      exact hlen prices hnd _

/-- Witness for C10 at concrete data: the duplicated report date
2023-03-31 counts once after deduplication and contributes at most one
price row. -/
theorem spec_c10_dedup_before_join_witness :
    20230331 ∈ [20230331, 20230331] ∧
    ((uniqueFirst [20230331, 20230331]).count 20230331 = 1 ∧
      (asOfRows [⟨20230101, 1, 1⟩] 20230331).length ≤ 1) :=
  ⟨by decide, spec_c10_dedup_before_join [20230331, 20230331] [⟨20230101, 1, 1⟩]
    20230331 (by decide) (by decide)⟩

lemma isOk_ok {α : Type} (x : α) : (Except.ok x : Except PyErr α).isOk = true := rfl

/-- C4 counterexample: `format_number` applied to the float value
`float('inf')` raises an uncaught `OverflowError` (from `int()`), so the
formatter does not return a string for every input value. -/
theorem spec_c4_format_number_raises_on_inf :
    format_number (.vInf false) = .error .overflowError := rfl

/-- C4 (amended): the price and date formatters return a string for every
modelled value, and the large-number formatter does so for every value
except those converting to an infinite float, where `int(float(value))`
raises an `OverflowError` that the `except (ValueError, TypeError)`
handler does not catch. -/
theorem spec_c4_formatters_total_except_overflow (v : Value) :
    (format_price v).isOk = true ∧ (format_date v).isOk = true ∧
    ((format_number v).isOk = true ∨
      ((∃ b, pyFloat v = .ok (.pinf b)) ∧
        format_number v = .error .overflowError)) := by
  refine ⟨?_, ?_, ?_⟩
  · cases v with
    | vStr s =>
      rcases h : pyParseFloat s with _ | f
      · simp [format_price, isna, pyFloat, h, caughtByHandlers, isOk_ok]
      · cases f <;>
          simp [format_price, isna, pyFloat, h, fmtF2OfFloat, pyFloatMul100, isOk_ok]
    | vInf b => cases b <;> rfl
    | vNone => rfl
    | vNan => rfl
    | vNum q => rfl
    | vDate y m d => rfl
  · cases v with
    | vStr s =>
      rcases h : parseIso s.data with _ | d
      · simp [format_date, isna, pdToDatetime, h, caughtByHandlers, isOk_ok]
      · simp [format_date, isna, pdToDatetime, h, isOk_ok]
    | vNum q =>
      by_cases h : q.num.natAbs < 86400000000000
      · simp [format_date, isna, pdToDatetime, h, isOk_ok]
      · simp [format_date, isna, pdToDatetime, h, caughtByHandlers, isOk_ok]
    | vInf b => cases b <;> rfl
    | vNone => rfl
    | vNan => rfl
    | vDate y m d => rfl
  · cases v with
    | vStr s =>
      rcases h : pyParseFloat s with _ | f
      · exact Or.inl (by
          simp [format_number, isna, pyFloat, h, caughtByHandlers, isOk_ok])
      · cases f with
        | pnan =>
          exact Or.inl (by
            simp [format_number, isna, pyFloat, h, pyIntOfFloat, caughtByHandlers,
              isOk_ok])
        | pinf b =>
          refine Or.inr ⟨⟨b, by simp [pyFloat, h]⟩, ?_⟩
          simp [format_number, isna, pyFloat, h, pyIntOfFloat, caughtByHandlers]
        | pfin q =>
          exact Or.inl (by
            simp [format_number, isna, pyFloat, h, pyIntOfFloat, isOk_ok])
    | vInf b => exact Or.inr ⟨⟨b, rfl⟩, rfl⟩
    | vNone => exact Or.inl rfl
    | vNan => exact Or.inl rfl
    | vNum q => exact Or.inl rfl
    | vDate y m d => exact Or.inl rfl

lemma stripCommas_commaFmt (n : ℤ) : stripCommas (commaFmt n) = decRepr n := by
  unfold stripCommas commaFmt decRepr decReprChars natDecDigits
  congr 1
  rw [show (String.mk ((if n < 0 then ['-'] else []) ++
      (group3 (natDigitsRev n.natAbs)).reverse)).data =
      (if n < 0 then ['-'] else []) ++ (group3 (natDigitsRev n.natAbs)).reverse from rfl]
  rw [List.filter_append, List.filter_reverse,
    group3_filter_comma _ (comma_not_mem_natDigitsRev _)]
  congr 1
  split <;> simp

lemma dot_not_mem_commaFmt (n : ℤ) : '.' ∉ (commaFmt n).data := by
  intro h
  unfold commaFmt at h
  rcases List.mem_append.mp h with h | h
  · split at h <;> simp at h
  · have h2 := List.mem_reverse.mp h
    rcases group3_subset _ _ h2 with h3 | h3
    · have := natDigitsRev_subset _ _ h3
      simp at this
    · exact absurd h3 (by decide)

/-- C5: the large-number formatter renders NA values as the empty string
(never as `nan`), and renders a finite numeric value as its truncation
toward zero with comma thousands separators and no decimal point:
removing the commas recovers exactly the decimal rendering of
`int(float(value))`. -/
theorem spec_c5_large_number_formatting (q : ℚ) :
    format_number .vNan = .ok "" ∧
    format_number .vNone = .ok "" ∧
    ("" : String) ≠ "nan" ∧
    format_number (.vNum q) = .ok (commaFmt (pyTrunc q)) ∧
    stripCommas (commaFmt (pyTrunc q)) = decRepr (pyTrunc q) ∧
    '.' ∉ (commaFmt (pyTrunc q)).data :=
  ⟨rfl, rfl, by decide, rfl, stripCommas_commaFmt _, dot_not_mem_commaFmt _⟩

lemma alignFor_eq_iff (s : String) : alignFor s = ":-" ↔ s ∈ leftAlignCols := by
  unfold alignFor
  split
  · simp_all
  · constructor
    · intro h; exact absurd h (by decide)
    · intro h; simp_all

/-- C6: in every rendered Markdown table, the alignment-line entry for a
header is `:-` exactly when that header belongs to the fixed
left-alignment set; every entry is `:-` or `-:`; in particular
`Report Date` is left-aligned and `Revenue` is right-aligned. -/
theorem spec_c6_markdown_alignment (hs : List String) (i : Fin hs.length) :
    ((alignmentRow hs).getD i "" = ":-" ↔ hs.get i ∈ leftAlignCols) ∧
    ((alignmentRow hs).getD i "" = ":-" ∨ (alignmentRow hs).getD i "" = "-:") ∧
    alignFor "Report Date" = ":-" ∧ alignFor "Revenue" = "-:" := by
  have hg : (alignmentRow hs).getD i "" = alignFor (hs.get i) := by
    unfold alignmentRow
    rw [List.getD_eq_getElem?_getD, List.getElem?_map, List.getElem?_eq_getElem i.isLt]
    simp [List.get_eq_getElem]
  refine ⟨?_, ?_, by decide, by decide⟩
  · rw [hg]; exact alignFor_eq_iff _
  · rw [hg]; unfold alignFor; split
    · exact Or.inl rfl
    · exact Or.inr rfl

lemma reMatchPrefix_nil (r : RegexAst) : reMatchPrefix r [] = reNullable r := rfl

lemma reMatchPrefix_cons (r : RegexAst) (c : Char) (t : List Char) :
    reMatchPrefix r (c :: t) = (reNullable r || reMatchPrefix (reDeriv r c) t) := rfl

lemma reSearch_nil (r : RegexAst) : reSearch r [] = reMatchPrefix r [] := rfl

lemma reSearch_cons (r : RegexAst) (c : Char) (t : List Char) :
    reSearch r (c :: t) = (reMatchPrefix r (c :: t) || reSearch r t) := rfl

lemma reMatchPrefix_alt (a b : RegexAst) : ∀ (s : List Char),
    reMatchPrefix (.alt a b) s = (reMatchPrefix a s || reMatchPrefix b s) := by
  intro s
  induction s generalizing a b with
  | nil => rfl
  | cons c t ih =>
    rw [reMatchPrefix_cons, reMatchPrefix_cons a, reMatchPrefix_cons b,
      show reDeriv (.alt a b) c = .alt (reDeriv a c) (reDeriv b c) from rfl, ih,
      show reNullable (.alt a b) = (reNullable a || reNullable b) from rfl]
    cases reNullable a <;> cases reNullable b <;>
      simp [Bool.or_assoc, Bool.or_comm, Bool.or_left_comm]

lemma reMatchPrefix_seq_fail (r : RegexAst) : ∀ (s : List Char),
    reMatchPrefix (.seq .fail r) s = false := by
  intro s
  induction s with
  | nil => rfl
  | cons c t ih =>
    rw [reMatchPrefix_cons,
      show reDeriv (.seq .fail r) c = .seq .fail r from rfl,
      show reNullable (.seq .fail r) = false from rfl, ih]
    rfl

lemma reMatchPrefix_seq_empty (r : RegexAst) (s : List Char) :
    reMatchPrefix (.seq .empty r) s = reMatchPrefix r s := by
  cases s with
  | nil =>
    rw [reMatchPrefix_nil, reMatchPrefix_nil,
      show reNullable (.seq .empty r) = (true && reNullable r) from rfl]
    simp
  | cons c t =>
    rw [reMatchPrefix_cons, reMatchPrefix_cons r,
      show reDeriv (.seq .empty r) c = .alt (.seq .fail r) (reDeriv r c) from rfl,
      reMatchPrefix_alt, reMatchPrefix_seq_fail,
      show reNullable (.seq .empty r) = (true && reNullable r) from rfl]
    simp

lemma reMatchPrefix_litSeq : ∀ (t s : List Char),
    reMatchPrefix (litSeq t) s = t.isPrefixOf s := by
  intro t
  induction t with
  | nil =>
    intro s
    cases s with
    | nil => rfl
    | cons c t2 =>
      rw [reMatchPrefix_cons, show reNullable (litSeq []) = true from rfl]
      simp [List.isPrefixOf]
  | cons c t2 ih =>
    intro s
    cases s with
    | nil => rfl
    | cons x xs =>
      rw [reMatchPrefix_cons,
        show litSeq (c :: t2) = .seq (.lit c) (litSeq t2) from rfl,
        show reNullable (.seq (.lit c) (litSeq t2)) = false from rfl,
        show reDeriv (.seq (.lit c) (litSeq t2)) x =
          .seq (if x = c then .empty else .fail) (litSeq t2) from rfl]
      by_cases hx : x = c
      · rw [if_pos hx, reMatchPrefix_seq_empty, ih xs]
        subst hx
        show (false || t2.isPrefixOf xs) = (x :: t2).isPrefixOf (x :: xs)
        rw [show (x :: t2).isPrefixOf (x :: xs) = (x == x && t2.isPrefixOf xs) from rfl]
        simp
      · rw [if_neg hx, reMatchPrefix_seq_fail]
        have hcx : (c == x) = false := by
          simp only [beq_eq_false_iff_ne]
          exact fun h => hx h.symm
        show (false || false) = (c :: t2).isPrefixOf (x :: xs)
        rw [show (c :: t2).isPrefixOf (x :: xs) = (c == x && t2.isPrefixOf xs) from rfl,
          hcx]
        rfl

lemma reSearch_litSeq (t : List Char) : ∀ (s : List Char),
    reSearch (litSeq t) s = substrB t s := by
  intro s
  induction s with
  | nil =>
    rw [reSearch_nil, reMatchPrefix_nil]
    cases t <;> rfl
  | cons c s2 ih =>
    rw [reSearch_cons, reMatchPrefix_litSeq, ih]
    rfl

lemma parseAtom_literal (f : Nat) (c : Char) (t : List Char)
    (h3 : c ∉ reSpecialChars) :
    parseAtom (f + 1) (c :: t) = .ok (.lit c, t) := by
  have h1 : ¬ c = '(' := fun h => h3 (by rw [h]; decide)
  have h2 : ¬ c = '.' := fun h => h3 (by rw [h]; decide)
  rw [show parseAtom (f + 1) (c :: t) =
      (if c = '(' then
        match parseAlt f t with
        | .ok (r, ')' :: rest2) => .ok (.group r, rest2)
        | .ok (_, _) => .error .reError
        | .error e => .error e
      else if c = '.' then .ok (.dot, t)
      else if c ∈ reSpecialChars then .error .reError
      else .ok (.lit c, t)) from rfl]
  rw [if_neg h1, if_neg h2, if_neg h3]

lemma applyQuant_no_quant (a : RegexAst) (rest : List Char)
    (h : ∀ x ∈ rest.head?.toList, ¬ (x = '*' ∨ x = '+' ∨ x = '?')) :
    applyQuant a rest = (a, rest) := by
  cases rest with
  | nil => rfl
  | cons x xs =>
    have hx := h x (by simp)
    have hx1 : ¬ x = '*' := fun hh => hx (Or.inl hh)
    have hx2 : ¬ x = '+' := fun hh => hx (Or.inr (Or.inl hh))
    have hx3 : ¬ x = '?' := fun hh => hx (Or.inr (Or.inr hh))
    simp [applyQuant, hx1, hx2, hx3]

lemma parseSeq_cons_eq (f : Nat) (c : Char) (t : List Char) :
    parseSeq (f + 1) (c :: t) =
      (if c = ')' ∨ c = '|' then .ok (.empty, c :: t)
       else
         match parseAtom f (c :: t) with
         | .error e => .error e
         | .ok (a, rest) =>
           let q := applyQuant a rest
           match parseSeq f q.2 with
           | .error e => .error e
           | .ok (b, rest3) => .ok (.seq q.1 b, rest3)) := rfl

lemma parseSeq_literal : ∀ (l : List Char) (fuel : Nat),
    l.length + 1 ≤ fuel → (∀ c ∈ l, c ∉ reSpecialChars) →
    parseSeq fuel l = .ok (litSeq l, []) := by
  intro l
  induction l with
  | nil =>
    intro fuel hf _
    cases fuel with
    | zero => exact absurd hf (Nat.not_succ_le_zero _)
    | succ f => rfl
  | cons c t ih =>
    intro fuel hf hl
    cases fuel with
    | zero => exact absurd hf (Nat.not_succ_le_zero _)
    | succ f =>
      have hc := hl c (List.mem_cons_self _ _)
      have ht : ∀ x ∈ t, x ∉ reSpecialChars :=
        fun x hx => hl x (List.mem_cons_of_mem _ hx)
      have hlen : t.length + 1 ≤ f := by
        simp only [List.length_cons] at hf
        omega
      obtain ⟨f2, rfl⟩ : ∃ f2, f = f2 + 1 := by
        cases f with
        | zero => exact absurd hlen (Nat.not_succ_le_zero _)
        | succ f2 => exact ⟨f2, rfl⟩
      have hcp : ¬ (c = ')' ∨ c = '|') := by
        rintro (h | h) <;> exact hc (by rw [h]; decide)
      have hq : applyQuant (.lit c) t = (.lit c, t) := by
        refine applyQuant_no_quant _ _ ?_
        intro x hx
        cases t with
        | nil => simp at hx
        | cons y ys =>
          have hy := ht y (List.mem_cons_self _ _)
          have : x = y := by simpa using hx
          subst this
          rintro (h | h | h) <;> exact hy (by rw [h]; decide)
      have hseqt := ih (f2 + 1) hlen ht
      rw [parseSeq_cons_eq (f2 + 1) c t, if_neg hcp, parseAtom_literal _ _ _ hc]
      show (let q := applyQuant (RegexAst.lit c) t;
        match parseSeq (f2 + 1) q.2 with
        | Except.error e => Except.error e
        | Except.ok (b, rest3) => Except.ok (RegexAst.seq q.1 b, rest3)) =
        Except.ok (litSeq (c :: t), ([] : List Char))
      rw [hq]
      show (match parseSeq (f2 + 1) t with
        | Except.error e => Except.error e
        | Except.ok (b, rest3) => Except.ok (RegexAst.seq (RegexAst.lit c) b, rest3)) =
        Except.ok (litSeq (c :: t), ([] : List Char))
      rw [hseqt]
      rfl

lemma parseAlt_succ_eq (f : Nat) (l : List Char) :
    parseAlt (f + 1) l =
      (match parseSeq f l with
       | .error e => .error e
       | .ok (a, '|' :: r2) =>
         match parseAlt f r2 with
         | .error e => .error e
         | .ok (b, rest2) => .ok (.alt a b, rest2)
       | .ok (a, rest) => .ok (a, rest)) := rfl

lemma parseAlt_literal (l : List Char) (fuel : Nat)
    (hf : l.length + 2 ≤ fuel) (hl : ∀ c ∈ l, c ∉ reSpecialChars) :
    parseAlt fuel l = .ok (litSeq l, []) := by
  cases fuel with
  | zero => exact absurd hf (Nat.not_succ_le_zero _)
  | succ f =>
    rw [parseAlt_succ_eq, parseSeq_literal l f (by omega) hl]

lemma parseRegex_literal (l : List Char) (hl : ∀ c ∈ l, c ∉ reSpecialChars) :
    parseRegex l = .ok (litSeq l) := by
  unfold parseRegex
  rw [parseAlt_literal l (2 * l.length + 2) (by omega) hl]

/-- C7 counterexample: the search term is interpreted as a regular
expression (`str.contains` defaults to `regex=True`), not as a literal
substring: the term `.` returns a company although neither its name nor
its ticker contains a `.` character, and the term `(` makes the masks
raise `re.error` instead of returning substring matches. -/
theorem spec_c7_regex_counterexample :
    searchCompanies "." [⟨"AB", some "AB Industries"⟩]
      = .ok [⟨"AB", some "AB Industries"⟩] ∧
    ¬ SpecMatch "." ⟨"AB", some "AB Industries"⟩ ∧
    substrB (lowerStr ".").data (lowerStr "AB Industries").data = false ∧
    searchCompanies "(" [⟨"AB", some "AB Industries"⟩] = .error .reError := by
  refine ⟨by decide, ?_, by decide, by decide⟩
  rintro (⟨n, hn, hsub⟩ | hsub)
  · injection hn with hn2
    subst hn2
    have := (substrB_correct _ _).mpr hsub
    exact absurd this (by decide)
  · have := (substrB_correct _ _).mpr hsub
    exact absurd this (by decide)

/-- C7 (amended): for every search term none of whose characters is a
regex metacharacter, the `list` command returns exactly the companies
whose name or ticker contains the term as a case-insensitive literal
substring (`specLiteralSearch`, written from the specification); the
empty term returns the whole table; and a row with a missing name is
never matched through its name (`na=False`), without any error. -/
theorem spec_c7_search_literal_terms (term : String) (cs : List Company)
    (c : Company) (hterm : ∀ ch ∈ (lowerStr term).data, ch ∉ reSpecialChars) :
    searchCompanies term cs = .ok (specLiteralSearch term cs) ∧
    (c ∈ specLiteralSearch term cs ↔ c ∈ cs ∧ (term = "" ∨ SpecMatch term c)) ∧
    searchCompanies "" cs = .ok cs := by
  have hdata : ∀ t : String, (lowerStr t).data = t.data.map Char.toLower := fun t => rfl
  have hempty : (lowerStr term).data.isEmpty = term.data.isEmpty := by
    rw [hdata]
    cases term.data <;> rfl
  have hthird : searchCompanies "" cs = .ok cs := by
    unfold searchCompanies
    rw [if_pos (by rw [hdata]; rfl)]
  refine ⟨?_, ?_, hthird⟩
  · by_cases hd : term.data.isEmpty
    · unfold searchCompanies specLiteralSearch
      rw [if_pos (by rw [hempty]; exact hd), if_pos hd]
    · unfold searchCompanies specLiteralSearch
      rw [if_neg (by rw [hempty]; exact hd), if_neg hd,
        parseRegex_literal _ hterm]
      refine congrArg Except.ok (List.filter_congr ?_)
      intro c2 _
      cases c2.companyName <;> simp [reSearch_litSeq]
  · by_cases ht : term = ""
    · subst ht
      unfold specLiteralSearch
      rw [if_pos (show ("" : String).data.isEmpty = true from rfl)]
      simp
    · have htd : term.data ≠ [] := fun hc => ht (String.ext hc)
      have hd : term.data.isEmpty = false := by
        cases hterm2 : term.data with
        | nil => exact absurd hterm2 htd
        | cons a l => rfl
      unfold specLiteralSearch
      rw [if_neg (by rw [hd]; exact Bool.false_ne_true)]
      rw [List.mem_filter]
      have hb : ((match c.companyName with
          | some n => substrB (lowerStr term).data (lowerStr n).data
          | none => false) ||
            substrB (lowerStr term).data (lowerStr c.tickerSym).data) = true ↔
          SpecMatch term c := by
        unfold SpecMatch SpecSubstr
        cases hn : c.companyName with
        | none => simp [substrB_correct]
        | some n => simp [substrB_correct]
      rw [hb]
      constructor
      · rintro ⟨h1, h2⟩; exact ⟨h1, Or.inr h2⟩
      · rintro ⟨h1, h2 | h2⟩
        · exact absurd h2 ht
        · exact ⟨h1, h2⟩

/-- Witness for C7 at the specification's own example: the literal term
`appl` (no metacharacters) returns exactly the literal-substring
matches. -/
theorem spec_c7_search_literal_terms_witness :
    searchCompanies "appl"
        [⟨"AAPL", some "Apple Inc."⟩, ⟨"MSFT", some "Microsoft"⟩, ⟨"XX", none⟩]
      = .ok (specLiteralSearch "appl"
        [⟨"AAPL", some "Apple Inc."⟩, ⟨"MSFT", some "Microsoft"⟩, ⟨"XX", none⟩]) :=
  (spec_c7_search_literal_terms "appl"
    [⟨"AAPL", some "Apple Inc."⟩, ⟨"MSFT", some "Microsoft"⟩, ⟨"XX", none⟩]
    ⟨"AAPL", some "Apple Inc."⟩ (by decide)).1

/-- C8: parsing the CSV produced by `save_dataframe` recovers exactly one
record per input row plus the header record, and the header record holds
exactly the input's column names: the round trip preserves the row count
and the column names. -/
theorem spec_c8_csv_shape_roundtrip (t : Table) (h1 : t.header ≠ [])
    (h2 : ∀ r ∈ t.rows, r ≠ []) :
    parseCSVChars (writeTable t) =
      t.header.map (fun s => s.data) :: t.rows.map (fun r => r.map decodeCell) ∧
    (parseCSVChars (writeTable t)).length = t.rows.length + 1 := by
  have hshape : writeTable t =
      (((t.header.map Cell.text) :: t.rows).map
        (fun r => recordChars (r.map cellChars) ++ ['\n'])).flatten := by
    unfold writeTable
    rw [List.map_cons, List.map_cons, List.map_map, List.map_map]
    rfl
  have hne : ∀ r ∈ (t.header.map Cell.text) :: t.rows, r ≠ [] := by
    intro r hr
    rcases List.mem_cons.mp hr with h | h
    · subst h
      simpa using h1
    · exact h2 r h
  have hmain : parseCSVChars (writeTable t) =
      t.header.map (fun s => s.data) :: t.rows.map (fun r => r.map decodeCell) := by
    unfold parseCSVChars
    rw [hshape, csvScan_records _ hne, List.map_cons, List.map_map]
    rfl
  exact ⟨hmain, by rw [hmain]; simp⟩

/-- Witness for C8 at a concrete one-row table. -/
theorem spec_c8_csv_shape_roundtrip_witness :
    (["Date", "Revenue"] : List String) ≠ [] ∧
    (parseCSVChars (writeTable ⟨["Date", "Revenue"],
        [[Cell.text "2023-03-31", Cell.nan]]⟩)).length = 1 + 1 :=
  ⟨by decide,
    (spec_c8_csv_shape_roundtrip ⟨["Date", "Revenue"], [[Cell.text "2023-03-31", Cell.nan]]⟩
      (by decide) (by decide)).2⟩

/-- C9: `dataframe_to_markdown` first copies the caller's frame and runs
the `Ticker`/`SimFinId`-dropping pipeline on the copy (each pandas call
involved returns a new frame), so after the call the caller's frame in
the store is exactly what it was before. -/
theorem spec_c9_caller_frame_unchanged (st : Store) (r : Nat) (title : String)
    (ip : Bool) (h : r < st.length) :
    List.getD (dataframe_to_markdown st r title ip).2 r default =
      List.getD st r default := by
  show List.getD (st ++ [List.getD st r default]) r default = List.getD st r default
  rw [List.getD_eq_getElem?_getD, List.getD_eq_getElem?_getD,
    List.getElem?_append_left h]

/-- Witness for C9 at a concrete store holding one two-level-indexed
frame. -/
theorem spec_c9_caller_frame_unchanged_witness :
    0 < ([⟨["Ticker", "Report Date"], ["Revenue"],
        [([Value.vStr "AAPL", Value.vStr "2023-03-31"], [Value.vStr "5"])]⟩] : Store).length ∧
    List.getD (dataframe_to_markdown
        [⟨["Ticker", "Report Date"], ["Revenue"],
          [([Value.vStr "AAPL", Value.vStr "2023-03-31"], [Value.vStr "5"])]⟩]
        0 "Income Statement" false).2 0 default =
      List.getD
        [(⟨["Ticker", "Report Date"], ["Revenue"],
          [([Value.vStr "AAPL", Value.vStr "2023-03-31"], [Value.vStr "5"])]⟩ : DataFrame)]
        0 default :=
  ⟨by decide,
    spec_c9_caller_frame_unchanged
      [⟨["Ticker", "Report Date"], ["Revenue"],
        [([Value.vStr "AAPL", Value.vStr "2023-03-31"], [Value.vStr "5"])]⟩]
      0 "Income Statement" false (by decide)⟩
